import Mathlib

/-!
Shallow embedding of `src/project/slideshow.py` (photo slideshow optimizer).

Conventions used throughout:
* a tag set is a `Finset String`;
* a slide is a pair `(photoIndices, tags) : List Nat × Finset String`;
* an input record (one line after the count line) is its list of
  whitespace-separated tokens, a `List String`;
* the external MILP solver (lines 39-65 of the source) is out of scope per
  the spec and enters only through the `SolverResult` it returns;
* fallible code (Python index errors) is embedded with `Option`, `none`
  standing for a raised exception.
-/

namespace Slideshow

/-- A slide: the photo indices composing it together with its tag set. -/
abbrev Slide := List Nat × Finset String

/-- Embedding of `compute_interest` (slideshow.py line 35):
`min(len(tags1 & tags2), len(tags1 - tags2), len(tags2 - tags1))`. -/
def compute_interest (tags1 tags2 : Finset String) : Nat :=
  min (min (tags1 ∩ tags2).card (tags1 \ tags2).card) ((tags2 \ tags1).card)

/-- The vertical-pairing loop (lines 26-29) viewed on the reversed sorted
list: popping the last two elements of the sorted list is taking the first
two of its reverse; `p1` is popped first, then `p2`, and the composite slide
is `([p1.index, p2.index], p1.tags ∪ p2.tags)`. -/
def pairRev : List (Nat × Finset String) → List Slide
  | p1 :: p2 :: rest => ([p1.1, p2.1], p1.2 ∪ p2.2) :: pairRev rest
  | _ => []

/-- Embedding of `vertical_photos.sort(key=lambda x: len(x[1]), reverse=True)`
(line 25): a stable sort by descending tag-set size (Python's `sort` is
stable; insertion sort with this comparison is the same stable order). -/
def sortVerticals (vs : List (Nat × Finset String)) : List (Nat × Finset String) :=
  List.insertionSort (fun a b => b.2.card ≤ a.2.card) vs

/-- Embedding of the record loop of `read_input` (lines 15-23): `n`
iterations remain, `i` is the 0-based index into the record list (the Python
`lines[i + 1]`, whose photo index is `i`); `hs` and `vs` accumulate
horizontal slides and vertical photos in input order.  `none` models the
`IndexError` raised when `lines[i]` or `parts[0]` does not exist.  The
declared tag count `parts[1]` is never read: the tags are `set(parts[2:])`,
and any orientation token other than `"H"` is treated as vertical. -/
def readLoop (recs : List (List String)) :
    Nat → Nat → List Slide → List (Nat × Finset String) →
    Option (List Slide × List (Nat × Finset String))
  | 0, _, hs, vs => some (hs, vs)
  | n + 1, i, hs, vs =>
    match recs[i]? with
    | none => none
    | some parts =>
      match parts with
      | [] => none
      | o :: rest =>
        if o = "H" then
          readLoop recs n (i + 1) (hs ++ [([i], (rest.drop 1).toFinset)]) vs
        else
          readLoop recs n (i + 1) hs (vs ++ [(i, (rest.drop 1).toFinset)])

/-- Embedding of `read_input` (lines 6-31): `N` is the count parsed from the
first line and `recs` are the token lists of the remaining lines.  After the
record loop the vertical photos are sorted by descending tag-set size and
paired two at a time from the end of the sorted list; the composite slides
are appended after all horizontal slides. -/
def read_input (N : Nat) (recs : List (List String)) : Option (List Slide) :=
  match readLoop recs N 0 [] [] with
  | none => none
  | some (hs, vs) => some (hs ++ pairRev (sortVerticals vs).reverse)

/-- The horizontal slides contributed by a record list whose first record has
photo index `i`, in input order (used to state what the record loop
produces). -/
def horizFrom : List (List String) → Nat → List Slide
  | [], _ => []
  | [] :: rest, i => horizFrom rest (i + 1)
  | (o :: t) :: rest, i =>
    if o = "H" then ([i], (t.drop 1).toFinset) :: horizFrom rest (i + 1)
    else horizFrom rest (i + 1)

/-- The vertical photos contributed by a record list whose first record has
photo index `i`, in input order. -/
def vertFrom : List (List String) → Nat → List (Nat × Finset String)
  | [], _ => []
  | [] :: rest, i => vertFrom rest (i + 1)
  | (o :: t) :: rest, i =>
    if o = "H" then vertFrom rest (i + 1)
    else (i, (t.drop 1).toFinset) :: vertFrom rest (i + 1)

/-- Structural version of the record loop, consuming the record list instead
of indexing into it; `readLoop` agrees with it when the declared count
matches the number of records. -/
def readLoopS : List (List String) → Nat → List Slide → List (Nat × Finset String) →
    Option (List Slide × List (Nat × Finset String))
  | [], _, hs, vs => some (hs, vs)
  | [] :: _, _, _, _ => none
  | (o :: rest) :: more, i, hs, vs =>
    if o = "H" then
      readLoopS more (i + 1) (hs ++ [([i], (rest.drop 1).toFinset)]) vs
    else
      readLoopS more (i + 1) hs (vs ++ [(i, (rest.drop 1).toFinset)])

/-- Replaces the second token (the declared tag count) of a record, when
present. -/
def setCountTok (c : String) : List String → List String
  | o :: _ :: rest => o :: c :: rest
  | l => l

/-- The activated-outgoing-edge search of the extraction loop (lines 83-86):
the first `j < S` with `j ≠ cur` and `x[cur][j]` set; when none exists `cur`
is returned unchanged, exactly as the Python loop leaves `current` as it is
when the inner `for` finds nothing. -/
def nextIdx (x : Nat → Nat → Bool) (S cur : Nat) : Nat :=
  match (List.range S).find? (fun j => (j != cur) && x cur j) with
  | some j => j
  | none => cur

/-- The sequence of `current` values visited by the extraction loop
(lines 80-86), `n` iterations starting from `cur`. -/
def pathGo (x : Nat → Nat → Bool) (S : Nat) : Nat → Nat → List Nat
  | 0, _ => []
  | n + 1, cur => cur :: pathGo x S n (nextIdx x S cur)

/-- The slide indices visited by `extract_slideshow_from_gurobi`, starting at
slide 0. -/
def extractPath (x : Nat → Nat → Bool) (S : Nat) : List Nat :=
  pathGo x S S 0

/-- `sorted(photos[i][0])` (line 81): the sorted photo-index tuple of
slide `i`. -/
def slideTuple (photos : List Slide) (i : Nat) : List Nat :=
  List.insertionSort (fun a b => a ≤ b) (photos.getD i ([], ∅)).1

/-- Embedding of `extract_slideshow_from_gurobi` (lines 75-88): walk the
activated edges from slide 0 for `S` steps, emitting each visited slide's
sorted photo-index tuple. -/
def extract_slideshow_from_gurobi (x : Nat → Nat → Bool) (photos : List Slide)
    (S : Nat) : List (List Nat) :=
  (pathGo x S S 0).map (slideTuple photos)

/-- Terminal status reported by the external solver (spec section 6). -/
inductive SolverStatus where
  | OPTIMAL
  | TIME_LIMIT_FEASIBLE
  | INFEASIBLE
  | NO_SOLUTION
  deriving DecidableEq

/-- What the external solve call returns: a terminal status, the solved
values of the binary variables (`x[i, j].X > 0.5` as a `Bool`), and the
objective value. -/
structure SolverResult where
  status : SolverStatus
  xval : Nat → Nat → Bool
  objVal : Nat

/-- Satisfaction of the model's degree constraints (lines 54-56) by a 0/1
assignment: every node `i < S` has exactly one activated outgoing and one
activated incoming edge among the `j < S` with `j ≠ i`. -/
def degreeOK (S : Nat) (xv : Nat → Nat → Bool) : Prop :=
  ∀ i, i < S →
    ((List.range S).filter (fun j => (j != i) && xv i j)).length = 1 ∧
    ((List.range S).filter (fun j => (j != i) && xv j i)).length = 1

/-- An honest solver run: when the reported status is OPTIMAL the returned
assignment satisfies the model's degree constraints. -/
def SolverHonest (S : Nat) (res : SolverResult) : Prop :=
  res.status = SolverStatus.OPTIMAL → degreeOK S res.xval

/-- Embedding of the status dispatch of `create_optimized_slideshow`
(lines 65-73): only `GRB.OPTIMAL` leads to extraction; any other status
returns the empty list and score 0.  The model build and the solve call are
abstracted into the `SolverResult` argument; `S = len(photos)`. -/
def create_optimized_slideshow (photos : List Slide) (res : SolverResult) :
    List (List Nat) × Nat :=
  if res.status = SolverStatus.OPTIMAL then
    (extract_slideshow_from_gurobi res.xval photos photos.length, res.objVal)
  else ([], 0)

/-- Embedding of `analyze_transitions` (lines 90-99): fold over
`range(len(order) - 1)`, summing the interest between consecutive slides
looked up in the photo dictionary (modelled as a total lookup function). -/
def analyze_transitions (order : List (List Nat))
    (photosDict : List Nat → Finset String) : Nat :=
  (List.range (order.length - 1)).foldl
    (fun acc i =>
      acc + compute_interest (photosDict (order.getD i []))
        (photosDict (order.getD (i + 1) []))) 0

/-- The spec's description of the Score Auditor (spec section 4.6), stated
structurally: the sum of `InterestScore` over consecutive pairs of the order,
with no wrap-around edge, and 0 for orders of at most one slide. -/
def pathScoreSpec (d : List Nat → Finset String) : List (List Nat) → Nat
  | a :: b :: rest => compute_interest (d a) (d b) + pathScoreSpec d (b :: rest)
  | _ => 0

/-- C1: the interest score between two slides equals the minimum of the
intersection size, the size of A minus B and the size of B minus A, and it is
0 whenever either tag set is empty. -/
theorem compute_interest_spec (A B : Finset String) :
    compute_interest A B
        = min (min (A ∩ B).card (A \ B).card) ((B \ A).card)
      ∧ compute_interest ∅ B = 0 ∧ compute_interest A ∅ = 0 := by
  refine ⟨rfl, ?_, ?_⟩ <;> simp [compute_interest]

/-- C9: the interest score is symmetric in its two arguments. -/
theorem compute_interest_symm (A B : Finset String) :
    compute_interest A B = compute_interest B A := by
  unfold compute_interest
  rw [Finset.inter_comm, min_right_comm]

/-- Pairing produces one composite slide from every two photos of the
reversed sorted list. -/
theorem pairRev_length : ∀ l : List (Nat × Finset String),
    (pairRev l).length = l.length / 2
  | [] => rfl
  | [_] => by simp [pairRev]
  | _ :: _ :: rest => by
    simp only [pairRev, List.length_cons]
    rw [pairRev_length rest]
    omega

/-- Every composite slide carries exactly two photo indices. -/
theorem pairRev_two : ∀ l : List (Nat × Finset String),
    ∀ s ∈ pairRev l, s.1.length = 2
  | [] => by simp [pairRev]
  | [_] => by simp [pairRev]
  | p :: q :: rest => by
    intro s hs
    rw [pairRev, List.mem_cons] at hs
    rcases hs with h | h
    · subst h; rfl
    · exact pairRev_two rest s h

/-- The photo indices used by the composite slides are exactly the first
`2 * (len / 2)` entries of the paired list, in pairing order. -/
theorem pairRev_flatMap : ∀ l : List (Nat × Finset String),
    (pairRev l).flatMap Prod.fst = (l.take (2 * (l.length / 2))).map Prod.fst
  | [] => rfl
  | [_] => by simp [pairRev]
  | p :: q :: rest => by
    have h2 : 2 * ((rest.length + 1 + 1) / 2) = 2 * (rest.length / 2) + 1 + 1 := by
      omega
    simp only [pairRev, List.flatMap_cons, List.length_cons, h2,
      List.take_succ_cons, List.map_cons]
    rw [pairRev_flatMap rest]
    rfl

/-- The structural record loop splits the records into horizontal slides and
vertical photos, appended to the accumulators, provided every record is
nonempty. -/
theorem readLoopS_ok : ∀ (l : List (List String)) (i : Nat) (hs : List Slide)
    (vs : List (Nat × Finset String)), (∀ r ∈ l, r ≠ []) →
    readLoopS l i hs vs = some (hs ++ horizFrom l i, vs ++ vertFrom l i)
  | [], _, _, _, _ => by simp [readLoopS, horizFrom, vertFrom]
  | [] :: _, _, _, _, h => absurd rfl (h [] (by simp))
  | (o :: t) :: rest, i, hs, vs, h => by
    have hrest : ∀ r ∈ rest, r ≠ [] := fun r hr => h r (List.mem_cons_of_mem _ hr)
    by_cases ho : o = "H" <;>
      simp [readLoopS, horizFrom, vertFrom, ho, readLoopS_ok rest (i + 1) _ _ hrest]

/-- The indexed record loop agrees with the structural one when the remaining
iteration count matches the remaining records. -/
theorem readLoop_eq_readLoopS (recs : List (List String)) : ∀ (n i : Nat)
    (hs : List Slide) (vs : List (Nat × Finset String)),
    recs.length = i + n →
    readLoop recs n i hs vs = readLoopS (recs.drop i) i hs vs := by
  intro n
  induction n with
  | zero =>
    intro i hs vs h
    rw [readLoop, List.drop_eq_nil_of_le (by omega), readLoopS]
  | succ n ih =>
    intro i hs vs h
    have hi : i < recs.length := by omega
    rw [readLoop, List.getElem?_eq_getElem hi, List.drop_eq_getElem_cons hi]
    rcases hrec : recs[i] with _ | ⟨o, t⟩
    · rfl
    · show (if o = "H" then _ else _) = _
      rw [readLoopS]
      by_cases ho : o = "H" <;> simp only [ho, if_true, if_false, reduceIte] <;>
        exact ih (i + 1) _ _ (by omega)

/-- On a well-formed input (every record nonempty, count equal to the number
of records) the parser succeeds with the horizontal slides followed by the
paired vertical slides. -/
theorem read_input_ok (recs : List (List String)) (h : ∀ r ∈ recs, r ≠ []) :
    read_input recs.length recs
      = some (horizFrom recs 0
          ++ pairRev (sortVerticals (vertFrom recs 0)).reverse) := by
  unfold read_input
  rw [readLoop_eq_readLoopS recs recs.length 0 [] [] (by omega), List.drop_zero,
    readLoopS_ok recs 0 [] [] h]
  simp

/-- C2: on every well-formed input the slide list is the horizontal slides
(in input order) followed by the composite vertical slides in pairing order;
the verticals are sorted by descending tag-set size and paired two at a time
from the end of the sorted list, each composite carrying exactly two photo
indices; the composite count is `floor(V / 2)`, the indices used are the
first `2 * (V / 2)` of the reversed sorted list (so exactly one vertical
photo is dropped when `V` is odd), and the sorted list is a permutation of
the parsed verticals. -/
theorem read_input_vertical_pairing (recs : List (List String))
    (hne : ∀ r ∈ recs, r ≠ []) :
    read_input recs.length recs
        = some (horizFrom recs 0
            ++ pairRev (sortVerticals (vertFrom recs 0)).reverse)
      ∧ (pairRev (sortVerticals (vertFrom recs 0)).reverse).length
          = (vertFrom recs 0).length / 2
      ∧ (∀ s ∈ pairRev (sortVerticals (vertFrom recs 0)).reverse, s.1.length = 2)
      ∧ (pairRev (sortVerticals (vertFrom recs 0)).reverse).flatMap Prod.fst
          = (((sortVerticals (vertFrom recs 0)).reverse).take
              (2 * ((vertFrom recs 0).length / 2))).map Prod.fst
      ∧ (sortVerticals (vertFrom recs 0)).Perm (vertFrom recs 0) := by
  have hlen : ((sortVerticals (vertFrom recs 0)).reverse).length
      = (vertFrom recs 0).length := by
    simp [sortVerticals, List.length_insertionSort]
  refine ⟨read_input_ok recs hne, ?_, pairRev_two _, ?_, ?_⟩
  · rw [pairRev_length, hlen]
  · rw [pairRev_flatMap, hlen]
  · exact List.perm_insertionSort _ _

/-- C2 witness: a concrete run with one horizontal and two vertical photos,
in which the verticals are paired into the single composite slide
`([2, 1], set of b and c)` appended after the horizontal slide. -/
theorem read_input_vertical_pairing_witness :
    (∀ r ∈ ([["H", "1", "a"], ["V", "1", "b"], ["V", "1", "c"]] :
        List (List String)), r ≠ [])
    ∧ read_input 3 [["H", "1", "a"], ["V", "1", "b"], ["V", "1", "c"]]
        = some [([0], {"a"}), ([2, 1], {"b", "c"})] := by
  refine ⟨by decide, ?_⟩
  have h : read_input 3 [["H", "1", "a"], ["V", "1", "b"], ["V", "1", "c"]]
      = some (horizFrom [["H", "1", "a"], ["V", "1", "b"], ["V", "1", "c"]] 0
          ++ pairRev (sortVerticals
              (vertFrom [["H", "1", "a"], ["V", "1", "b"], ["V", "1", "c"]] 0)).reverse) :=
    (read_input_vertical_pairing
      [["H", "1", "a"], ["V", "1", "b"], ["V", "1", "c"]] (by decide)).1
  rw [h]
  exact congrArg some (by decide)

/-- C3 counterexample: a record declaring 5 tags while carrying a single tag
token is accepted without any error, and a slide list is produced; the parser
raises no FormatError. -/
theorem read_input_accepts_bad_tag_count :
    read_input 1 [["H", "5", "a"]] = some [([0], {"a"})] := by
  have h : readLoop [["H", "5", "a"]] 1 0 [] [] = some ([([0], {"a"})], []) := by
    decide
  unfold read_input
  rw [h]
  rfl

/-- When the declared count exceeds the number of records the indexed loop
fails with an index error. -/
theorem readLoop_none_of_short (recs : List (List String)) : ∀ (n i : Nat)
    (hs : List Slide) (vs : List (Nat × Finset String)),
    recs.length < i + n → i ≤ recs.length →
    readLoop recs n i hs vs = none := by
  intro n
  induction n with
  | zero => intro i hs vs h h2; omega
  | succ n ih =>
    intro i hs vs h h2
    rw [readLoop]
    rcases Nat.lt_or_ge i recs.length with hi | hi
    · rw [List.getElem?_eq_getElem hi]
      rcases recs[i] with _ | ⟨o, t⟩
      · rfl
      · show (if o = "H" then _ else _) = _
        by_cases ho : o = "H" <;> simp only [ho, reduceIte] <;>
          exact ih (i + 1) _ _ (by omega) (by omega)
    · rw [List.getElem?_eq_none hi]

/-- The record loop never reads the second token of a record: overwriting it
everywhere leaves the result unchanged. -/
theorem readLoop_setCountTok (recs : List (List String)) (c : String) :
    ∀ (n i : Nat) (hs : List Slide) (vs : List (Nat × Finset String)),
    readLoop (recs.map (setCountTok c)) n i hs vs = readLoop recs n i hs vs := by
  intro n
  induction n with
  | zero => intro i hs vs; rfl
  | succ n ih =>
    intro i hs vs
    rw [readLoop, readLoop, List.getElem?_map]
    rcases hrec : recs[i]? with _ | parts
    · rfl
    · rcases parts with _ | ⟨o, t⟩
      · rfl
      · rcases t with _ | ⟨c0, rest⟩ <;>
        · show (if o = "H" then _ else _) = (if o = "H" then _ else _)
          by_cases ho : o = "H" <;> simp only [ho, reduceIte] <;> exact ih (i + 1) _ _

/-- C3 amended: the parser performs no format validation.  The declared tag
count is ignored entirely (overwriting every record's second token changes
nothing, and no error is raised on a mismatch), and the only count-related
failure is an index error when the declared photo count exceeds the number of
records. -/
theorem read_input_ignores_declared_counts (N : Nat)
    (recs : List (List String)) (c : String) :
    (recs.length < N → read_input N recs = none)
    ∧ read_input N (recs.map (setCountTok c)) = read_input N recs := by
  constructor
  · intro h
    unfold read_input
    rw [readLoop_none_of_short recs N 0 [] [] (by omega) (by omega)]
  · unfold read_input
    rw [readLoop_setCountTok recs c N 0 [] []]

/-- C3 amended witness: with 1 record but a declared count of 2 the parser
fails with an index error, and overwriting the declared tag count token does
not change the outcome. -/
theorem read_input_ignores_declared_counts_witness :
    read_input 2 [["H", "1", "a"]] = none
    ∧ read_input 2 [["H", "77", "a"]] = read_input 2 [["H", "1", "a"]] := by
  have h := read_input_ignores_declared_counts 2 [["H", "1", "a"]] "77"
  exact ⟨h.1 (by decide), h.2⟩

/-- When no `j < S` other than `cur` has an activated edge from `cur`, the
edge search leaves the current index unchanged. -/
theorem nextIdx_eq_self (x : Nat → Nat → Bool) (S cur : Nat)
    (h : ∀ j, j < S → ¬(j ≠ cur ∧ x cur j = true)) :
    nextIdx x S cur = cur := by
  unfold nextIdx
  rcases hfind : (List.range S).find? (fun j => (j != cur) && x cur j) with _ | j
  · rfl
  · have hp := List.find?_some hfind
    have hm := List.mem_range.mp (List.mem_of_find?_eq_some hfind)
    simp only [Bool.and_eq_true, bne_iff_ne] at hp
    exact absurd hp (h j hm)

/-- A step whose edge search fails repeats the same index forever. -/
theorem pathGo_const (x : Nat → Nat → Bool) (S cur : Nat)
    (h : nextIdx x S cur = cur) :
    ∀ n, pathGo x S n cur = List.replicate n cur
  | 0 => rfl
  | n + 1 => by rw [pathGo, h, pathGo_const x S cur h n, List.replicate_succ]

/-- The extraction loop always performs exactly `n` iterations. -/
theorem pathGo_length (x : Nat → Nat → Bool) (S : Nat) :
    ∀ (n cur : Nat), (pathGo x S n cur).length = n
  | 0, _ => rfl
  | n + 1, cur => by
    rw [pathGo, List.length_cons, pathGo_length x S n (nextIdx x S cur)]

/-- C4 counterexample: on a solved matrix with no activated outgoing edge at
slide 0, extraction does not fail: it silently produces the degenerate order
`[[0], [0]]` that repeats slide 0. -/
theorem extract_no_edge_no_error :
    extract_slideshow_from_gurobi (fun _ _ => false)
      [([0], (∅ : Finset String)), ([1], (∅ : Finset String))] 2 = [[0], [0]] := by
  decide

/-- C4 amended: when the edge search finds no activated outgoing edge at a
step, tour extraction raises no error; the current index is left unchanged,
so with an all-false matrix the extractor emits slide 0's tuple `S` times. -/
theorem extract_all_false_degenerate (photos : List Slide) (S : Nat) :
    extract_slideshow_from_gurobi (fun _ _ => false) photos S
      = List.replicate S (slideTuple photos 0) := by
  have h : nextIdx (fun _ _ => false) S 0 = 0 :=
    nextIdx_eq_self _ S 0 (by simp)
  unfold extract_slideshow_from_gurobi
  rw [pathGo_const _ S 0 h S, List.map_replicate]

/-- C10: tour extraction is total over arbitrary solution matrices: it always
returns exactly `S` entries whose first entry is slide 0's sorted tuple, and
at any index with no activated outgoing edge the walk stays in place,
repeating that slide on all subsequent steps. -/
theorem extract_total_shape (x : Nat → Nat → Bool) (photos : List Slide)
    (S : Nat) (hS : 1 ≤ S) (hlen : S ≤ photos.length) :
    (extract_slideshow_from_gurobi x photos S).length = S
    ∧ (extract_slideshow_from_gurobi x photos S).head? = some (slideTuple photos 0)
    ∧ ∀ cur n, (∀ j, j < S → ¬(j ≠ cur ∧ x cur j = true)) →
        pathGo x S n cur = List.replicate n cur := by
  refine ⟨?_, ?_, ?_⟩
  · simp [extract_slideshow_from_gurobi, pathGo_length]
  · obtain ⟨m, rfl⟩ : ∃ m, S = m + 1 := ⟨S - 1, by omega⟩
    rw [extract_slideshow_from_gurobi, pathGo, List.map_cons, List.head?_cons]
  · intro cur n h
    exact pathGo_const x S cur (nextIdx_eq_self x S cur h) n

/-- C10 witness: a concrete single-slide instance of the totality theorem. -/
theorem extract_total_shape_witness :
    (1 ≤ 1 ∧ 1 ≤ ([([0], (∅ : Finset String))] : List Slide).length)
    ∧ (extract_slideshow_from_gurobi (fun _ _ => false)
        [([0], (∅ : Finset String))] 1).length = 1 := by
  refine ⟨⟨by decide, by decide⟩, ?_⟩
  exact (extract_total_shape (fun _ _ => false) [([0], (∅ : Finset String))] 1
    (by decide) (by decide)).1

/-- C5 counterexample: a TIME_LIMIT_FEASIBLE result carrying a fully valid
2-cycle (it satisfies the degree constraints) is discarded: the caller
returns `([], 0)` instead of extracting and emitting the tour. -/
theorem create_time_limit_discards :
    degreeOK 2 (fun i j => decide (i ≠ j ∧ i < 2 ∧ j < 2))
    ∧ create_optimized_slideshow
        [([0], ({"a"} : Finset String)), ([1], ({"b"} : Finset String))]
        ⟨SolverStatus.TIME_LIMIT_FEASIBLE, fun i j => decide (i ≠ j ∧ i < 2 ∧ j < 2), 7⟩
      = ([], 0) := by
  exact ⟨by unfold degreeOK; decide, rfl⟩

/-- C5 amended: only the OPTIMAL status leads to extraction; every other
status — including a best-found feasible solution at the time limit — makes
the caller discard the solution and return the empty order with score 0. -/
theorem create_non_optimal_empty (photos : List Slide) (res : SolverResult)
    (h : res.status ≠ SolverStatus.OPTIMAL) :
    create_optimized_slideshow photos res = ([], 0) := by
  simp [create_optimized_slideshow, h]

/-- C5 amended witness: a concrete TIME_LIMIT_FEASIBLE result is discarded. -/
theorem create_non_optimal_empty_witness :
    SolverStatus.TIME_LIMIT_FEASIBLE ≠ SolverStatus.OPTIMAL
    ∧ create_optimized_slideshow []
        ⟨SolverStatus.TIME_LIMIT_FEASIBLE, fun _ _ => false, 5⟩ = ([], 0) :=
  ⟨by decide, create_non_optimal_empty [] _ (by decide)⟩

/-- For a single slide the degree constraints are unsatisfiable: the outgoing
sum over the empty index set cannot equal 1. -/
theorem not_degreeOK_one (xv : Nat → Nat → Bool) : ¬ degreeOK 1 xv := by
  intro h
  have h0 := (h 0 Nat.one_pos).1
  have hr : List.range 1 = [0] := rfl
  rw [hr] at h0
  simp at h0

/-- C6 counterexample: for a single-slide list the model is still built, its
degree constraints are unsatisfiable, and the run returns `([], 0)` — not a
one-line trivial order with 1 slide. -/
theorem single_slide_not_skipped :
    (¬ ∃ xv : Nat → Nat → Bool, degreeOK 1 xv)
    ∧ create_optimized_slideshow [([0], ({"a"} : Finset String))]
        ⟨SolverStatus.INFEASIBLE, fun _ _ => false, 0⟩ = ([], 0) :=
  ⟨fun ⟨xv, h⟩ => not_degreeOK_one xv h, rfl⟩

/-- C6 amended: there is no `S <= 1` shortcut: the model is always built, and
for a single-slide list its degree constraints are unsatisfiable, so an
honest solver cannot report OPTIMAL and the caller returns the empty order
and score 0 instead of the trivial one-slide order. -/
theorem create_single_slide_empty (photos : List Slide) (res : SolverResult)
    (hlen : photos.length = 1) (hres : SolverHonest photos.length res) :
    create_optimized_slideshow photos res = ([], 0) := by
  by_cases h : res.status = SolverStatus.OPTIMAL
  · exact absurd (hlen ▸ hres h) (not_degreeOK_one _)
  · simp [create_optimized_slideshow, h]

/-- C6 amended witness: a concrete single-slide run with an honest INFEASIBLE
solver result yields the empty order. -/
theorem create_single_slide_empty_witness :
    ([([0], ({"a"} : Finset String))] : List Slide).length = 1
    ∧ SolverHonest 1 ⟨SolverStatus.INFEASIBLE, fun _ _ => false, 0⟩
    ∧ create_optimized_slideshow [([0], ({"a"} : Finset String))]
        ⟨SolverStatus.INFEASIBLE, fun _ _ => false, 0⟩ = ([], 0) := by
  refine ⟨rfl, fun h => absurd h (by decide), ?_⟩
  exact create_single_slide_empty [([0], ({"a"} : Finset String))]
    ⟨SolverStatus.INFEASIBLE, fun _ _ => false, 0⟩ rfl (fun h => absurd h (by decide))

/-- The extraction walk is the orbit of the start index under the
edge-search successor. -/
theorem pathGo_eq_iterate (x : Nat → Nat → Bool) (S : Nat) :
    ∀ (n cur : Nat),
    pathGo x S n cur = (List.range n).map (fun k => (nextIdx x S)^[k] cur) := by
  intro n
  induction n with
  | zero => intro cur; rfl
  | succ n ih =>
    intro cur
    rw [pathGo, ih (nextIdx x S cur), List.range_succ_eq_map, List.map_cons,
      List.map_map]
    refine congrArg₂ _ rfl (List.map_congr_left fun k _ => ?_)
    simp [Function.iterate_succ_apply]

/-- When some activated outgoing edge exists, the edge search returns an
index below `S`, different from the current one, whose edge is activated. -/
theorem nextIdx_spec (x : Nat → Nat → Bool) (S cur : Nat)
    (h : ∃ j, j < S ∧ j ≠ cur ∧ x cur j = true) :
    nextIdx x S cur < S ∧ nextIdx x S cur ≠ cur
      ∧ x cur (nextIdx x S cur) = true := by
  obtain ⟨j, hj, hne, hx⟩ := h
  unfold nextIdx
  rcases hfind : (List.range S).find? (fun j => (j != cur) && x cur j) with _ | r
  · exfalso
    have hnone := List.find?_eq_none.mp hfind j (List.mem_range.mpr hj)
    simp [hne, hx] at hnone
  · have hp := List.find?_some hfind
    have hm := List.mem_range.mp (List.mem_of_find?_eq_some hfind)
    simp only [Bool.and_eq_true, bne_iff_ne] at hp
    exact ⟨hm, hp.1, hp.2⟩

/-- Under the degree constraints' out-edge existence, the orbit of slide 0
stays inside the index range. -/
theorem iterate_nextIdx_lt (x : Nat → Nat → Bool) (S : Nat) (hS : 0 < S)
    (hout : ∀ i, i < S → ∃ j, j < S ∧ j ≠ i ∧ x i j = true) :
    ∀ k, (nextIdx x S)^[k] 0 < S := by
  intro k
  induction k with
  | zero => simpa using hS
  | succ k ih =>
    rw [Function.iterate_succ_apply']
    exact (nextIdx_spec x S _ (hout _ ih)).1

/-- C7: on a solved matrix whose every node has an activated outgoing edge
and whose successor walk from slide 0 is a single Hamiltonian cycle (the
first `S` iterates from 0 are pairwise distinct), the extracted order starts
at slide 0, has exactly `S` elements, visits each slide index exactly once,
every consecutive pair is an activated edge of `x`, and the emitted tuple
list has exactly `S` entries. -/
theorem extract_valid_matrix_tour (x : Nat → Nat → Bool) (S : Nat)
    (hS : 0 < S)
    (hout : ∀ i, i < S → ∃ j, j < S ∧ j ≠ i ∧ x i j = true)
    (hcyc : ∀ k, k < S → ∀ l, l < S →
        (nextIdx x S)^[k] 0 = (nextIdx x S)^[l] 0 → k = l) :
    (extractPath x S).length = S
    ∧ (extractPath x S).head? = some 0
    ∧ (extractPath x S).Nodup
    ∧ (∀ i, i < S → i ∈ extractPath x S)
    ∧ List.Chain' (fun a b => x a b = true) (extractPath x S)
    ∧ ∀ photos : List Slide, (extract_slideshow_from_gurobi x photos S).length = S := by
  have hpath : extractPath x S
      = (List.range S).map (fun k => (nextIdx x S)^[k] 0) :=
    pathGo_eq_iterate x S S 0
  have hlen : (extractPath x S).length = S := by simp [hpath]
  have hnodup : (extractPath x S).Nodup := by
    rw [hpath]
    exact List.Nodup.map_on
      (fun k hk l hl h =>
        hcyc k (List.mem_range.mp hk) l (List.mem_range.mp hl) h)
      (List.nodup_range S)
  refine ⟨hlen, ?_, hnodup, ?_, ?_, ?_⟩
  · obtain ⟨m, rfl⟩ : ∃ m, S = m + 1 := ⟨S - 1, by omega⟩
    rw [hpath, List.range_succ_eq_map, List.map_cons, List.head?_cons,
      Function.iterate_zero_apply]
  · intro i hi
    have hsub : (extractPath x S).toFinset ⊆ Finset.range S := by
      intro a ha
      rw [List.mem_toFinset, hpath] at ha
      obtain ⟨k, _, rfl⟩ := List.mem_map.mp ha
      exact Finset.mem_range.mpr (iterate_nextIdx_lt x S hS hout k)
    have heq : (extractPath x S).toFinset = Finset.range S :=
      Finset.eq_of_subset_of_card_le hsub
        (by rw [List.toFinset_card_of_nodup hnodup, hlen, Finset.card_range])
    exact List.mem_toFinset.mp (heq ▸ Finset.mem_range.mpr hi)
  · rw [hpath, List.chain'_map]
    obtain ⟨m, rfl⟩ : ∃ m, S = m + 1 := ⟨S - 1, by omega⟩
    refine (List.chain'_range_succ _ m).mpr fun k hk => ?_
    rw [Function.iterate_succ_apply']
    exact (nextIdx_spec x (m + 1) _
      (hout _ (iterate_nextIdx_lt x (m + 1) hS hout k))).2.2
  · intro photos
    simp [extract_slideshow_from_gurobi, pathGo_length]

/-- C7 witness: the 3-cycle 0 → 1 → 2 → 0 satisfies all hypotheses and its
extracted path is a duplicate-free walk starting at 0. -/
theorem extract_valid_matrix_tour_witness :
    ((0 : Nat) < 3
      ∧ (∀ i, i < 3 → ∃ j, j < 3 ∧ j ≠ i
          ∧ (fun i j => decide (j = (i + 1) % 3 ∧ i < 3)) i j = true))
    ∧ (extractPath (fun i j => decide (j = (i + 1) % 3 ∧ i < 3)) 3).Nodup
    ∧ (extractPath (fun i j => decide (j = (i + 1) % 3 ∧ i < 3)) 3).head? = some 0 := by
  have h := extract_valid_matrix_tour
    (fun i j => decide (j = (i + 1) % 3 ∧ i < 3)) 3
    (by decide) (by decide) (by decide)
  exact ⟨⟨by decide, by decide⟩, h.2.2.1, h.2.1⟩

/-- Folding an addition starting from `c` is `c` plus the fold from 0. -/
theorem foldl_add_shift (g : Nat → Nat) :
    ∀ (l : List Nat) (c : Nat),
    l.foldl (fun acc i => acc + g i) c = c + l.foldl (fun acc i => acc + g i) 0 := by
  intro l
  induction l with
  | nil => intro c; simp
  | cons a l ih =>
    intro c
    rw [List.foldl_cons, List.foldl_cons, ih (c + g a), ih (0 + g a)]
    omega

/-- The auditor's fold over `range(len - 1)` equals the structural
consecutive-pair sum. -/
theorem analyze_transitions_eq_pathScoreSpec :
    ∀ (order : List (List Nat)) (d : List Nat → Finset String),
    analyze_transitions order d = pathScoreSpec d order
  | [], _ => rfl
  | [_], _ => rfl
  | a :: b :: rest, d => by
    have ih := analyze_transitions_eq_pathScoreSpec (b :: rest) d
    unfold analyze_transitions at ih ⊢
    rw [pathScoreSpec]
    simp only [List.length_cons, Nat.add_sub_cancel] at ih ⊢
    rw [List.range_succ_eq_map, List.foldl_cons, List.foldl_map]
    simp only [List.getD_cons_zero, List.getD_cons_succ, Nat.zero_add] at ih ⊢
    rw [foldl_add_shift
      (fun i => compute_interest (d ((b :: rest).getD i []))
        (d (rest.getD i []))), ih]

/-- C8: the Score Auditor returns the sum of the interest scores over the
`k - 1` consecutive pairs of the extracted order — an open path score with no
wrap-around edge — and returns 0 for any order with at most one slide. -/
theorem analyze_transitions_path (order : List (List Nat))
    (d : List Nat → Finset String) (s : List Nat) :
    analyze_transitions order d = pathScoreSpec d order
    ∧ analyze_transitions [] d = 0 ∧ analyze_transitions [s] d = 0 :=
  ⟨analyze_transitions_eq_pathScoreSpec order d, rfl, rfl⟩

end Slideshow
